import Mathlib

/-!
# Verification of the function-analysis engine

Shallow embedding of the curve-selection and point-classification engine of
the `function_analysis` repository (`selector.py`, `tester.py`,
`processor.py`, `main.py`).

Modelling conventions:
* Floating-point sample values are modelled as rationals (`ℚ`); Python's
  `float('inf')` sentinel is modelled as `⊤` in `WithTop ℚ`.
* A pandas `DataFrame` holding the training data is a `TrainingTable`
  (an `x` column and the four reference columns `y1`..`y4`); the ideal
  frame is an `IdealTable` whose candidate columns form an association
  list indexed by the column number of `y{i}` (a missing key models a
  missing `y{i}` column).  Row values of the test frame may be missing
  (pandas `NaN`), hence `Option ℚ` fields.
* The comparison `deviation <= np.sqrt(2) * train_deviation` (both sides
  nonnegative) is encoded over `ℚ` by squaring: `d ≤ √2·t ↔ d² ≤ 2·t²`
  for `0 ≤ d, t`; the lemma `leSqrtTwoMul_iff_real` below proves this
  encoding equivalent to the real-number inequality with `Real.sqrt 2`.
* Errors raised (`SelectionError`, `DataError`) are modelled by
  `Except String`.
* `BaseProcessor.clean_data` (`dropna` followed by `drop_duplicates`,
  keeping first occurrences) is modelled on the test path, where the
  claims exercise it; the selector's tables are taken as the already
  materialized numeric frames.
-/

/-- The training frame: column `x` and reference columns `y1`..`y4`
(`database.py` `TrainingData`, read back by `Database.get_training`). -/
structure TrainingTable where
  x : List ℚ
  y1 : List ℚ
  y2 : List ℚ
  y3 : List ℚ
  y4 : List ℚ
deriving DecidableEq, Repr

/-- Column access `training[train_col]` for `train_col = 'y{j}'`, `j ∈ 1..4`. -/
def TrainingTable.col (t : TrainingTable) : ℕ → List ℚ
  | 1 => t.y1
  | 2 => t.y2
  | 3 => t.y3
  | 4 => t.y4
  | _ => []

/-- The ideal frame: column `x` plus candidate columns; the association
list `cols` binds `i` exactly when column `y{i}` is present
(`f'y{i}' in ideal.columns`). -/
structure IdealTable where
  x : List ℚ
  cols : List (ℕ × List ℚ)
deriving DecidableEq, Repr

/-- Candidate-column access: `some` of the column data of `y{i}` when the
column is present, `none` otherwise. -/
def colLookup : List (ℕ × List ℚ) → ℕ → Option (List ℚ)
  | [], _ => none
  | (k, v) :: rest, i => if k = i then some v else colLookup rest i

/-- `np.sum((training[train_col] - ideal[ideal_col]) ** 2)`: the least-squares
error between two aligned columns (the shared-grid precondition makes the
row-by-row pairing a `zip`). -/
def lsError (t c : List ℚ) : ℚ :=
  ((t.zip c).map fun p => (p.1 - p.2) ^ 2).sum

/-- Loop state of the selection loop in `FunctionSelector.process`:
`best_error` starts at `float('inf')`, `best_ideal` at `None`. -/
structure SelState where
  best_error : WithTop ℚ
  best_ideal : Option ℕ
deriving DecidableEq, Repr

/-- One iteration of the candidate loop in `FunctionSelector.process`
(`selector.py` lines 36–43).  When column `y{i}` is present the code runs
`if error < best_error: best_error = best_error; best_ideal = i`; the
assignment `best_error = best_error` is transcribed verbatim (the frame
keeps `s.best_error`), as in the source. -/
def selStep (train : List ℚ) (ideal : IdealTable) (s : SelState) (i : ℕ) : SelState :=
  match colLookup ideal.cols i with
  | none => s
  | some c =>
      let error := lsError train c
      if (error : WithTop ℚ) < s.best_error then ⟨s.best_error, some i⟩ else s

/-- The candidate loop `for i in range(1, 51)` for one training column. -/
def selectFor (train : List ℚ) (ideal : IdealTable) : SelState :=
  (List.range' 1 50).foldl (selStep train ideal) ⟨⊤, none⟩

/-- Python truthiness of `best_ideal` in `if best_ideal:`
(`None` and `0` are falsy). -/
def pyTruthy : Option ℕ → Bool
  | none => false
  | some i => i ≠ 0

/-- `FunctionSelector.process`: iterate the four training columns, record
`selected[train_col] = best_ideal` when truthy (insertion-ordered mapping,
modelled as an association list), and fail with `SelectionError` unless
exactly 4 selections were made. -/
def selectorProcess (training : TrainingTable) (ideal : IdealTable) :
    Except String (List (ℕ × ℕ)) :=
  let selected := [1, 2, 3, 4].foldl (fun acc j =>
    let s := selectFor (training.col j) ideal
    match s.best_ideal with
    | some i => if pyTruthy (some i) then acc ++ [(j, i)] else acc
    | none => acc) []
  if selected.length ≠ 4 then Except.error "Could not select 4 ideal functions"
  else Except.ok selected

/-- Acceptance comparison `deviation <= np.sqrt(2) * train_deviation` of
`tester.py`, encoded over `ℚ` by squaring both (nonnegative) sides. -/
def leSqrtTwoMul (d t : ℚ) : Bool :=
  decide (d ^ 2 ≤ 2 * t ^ 2)

/-- `pd.Series.idxmin` scan: index of the first occurrence of the minimum.
`pos` is the index of the list head in the original series, `bi`/`bv` the
index and value of the current best (strict `<` keeps the earliest). -/
def idxminFrom : List ℚ → ℕ → ℕ → ℚ → ℕ
  | [], _, bi, _ => bi
  | a :: as, pos, bi, bv =>
      if a < bv then idxminFrom as (pos + 1) pos a else idxminFrom as (pos + 1) bi bv

/-- `idxmin` over a series (first index of the minimal value; `0` for the
empty series, which the claims never exercise). -/
def idxmin : List ℚ → ℕ
  | [] => 0
  | a :: as => idxminFrom as 1 0 a

/-- `np.abs(xs - tx).idxmin()`: row index of the sample nearest `tx`. -/
def closestIdx (xs : List ℚ) (tx : ℚ) : ℕ :=
  idxmin (xs.map fun v => |v - tx|)

/-- `ideal.loc[closest_idx, ideal_col]`: the candidate's `y` at the ideal
row nearest the test `x` (out-of-range/missing column default to junk `0`,
excluded by the well-formedness hypotheses of the theorems). -/
def pairIdealY (ideal : IdealTable) (i : ℕ) (tx : ℚ) : ℚ :=
  ((colLookup ideal.cols i).getD []).getD (closestIdx ideal.x tx) 0

/-- `deviation = abs(test_y - ideal_y)` for one selected pair. -/
def pairDev (ideal : IdealTable) (i : ℕ) (tx ty : ℚ) : ℚ :=
  |ty - pairIdealY ideal i tx|

/-- `training.loc[train_closest_idx, train_func]`: the reference's `y` at
the training row nearest the test `x`. -/
def pairTrainY (training : TrainingTable) (j : ℕ) (tx : ℚ) : ℚ :=
  (training.col j).getD (closestIdx training.x tx) 0

/-- `train_deviation = abs(train_y - ideal_y)`. -/
def pairTrainDev (training : TrainingTable) (ideal : IdealTable) (j i : ℕ) (tx : ℚ) : ℚ :=
  |pairTrainY training j tx - pairIdealY ideal i tx|

/-- The acceptance test `deviation <= np.sqrt(2) * train_deviation` for the
pair `(y{j}, y{i})` at the test observation `(tx, ty)`. -/
def pairAccepts (training : TrainingTable) (ideal : IdealTable)
    (p : ℕ × ℕ) (tx ty : ℚ) : Bool :=
  leSqrtTwoMul (pairDev ideal p.2 tx ty) (pairTrainDev training ideal p.1 p.2 tx)

/-- One output record of `TestProcessor._match_point` (the dict with keys
`x`, `y`, `ideal_function`, `deviation`; the identifier string `f'y{i}'`
is modelled by the column number `i`). -/
structure MatchResult where
  x : ℚ
  y : ℚ
  ideal_function : ℕ
  deviation : ℚ
deriving DecidableEq, Repr

/-- One iteration of the `for train_func, ideal_idx in selected.items()` loop
of `_match_point`: state is `(best_match, min_deviation)` and the update
fires on `deviation <= max_deviation and deviation < min_deviation`. -/
def matchStep (training : TrainingTable) (ideal : IdealTable) (tx ty : ℚ)
    (acc : Option MatchResult × WithTop ℚ) (p : ℕ × ℕ) :
    Option MatchResult × WithTop ℚ :=
  let deviation := pairDev ideal p.2 tx ty
  if pairAccepts training ideal p tx ty = true ∧ (deviation : WithTop ℚ) < acc.2 then
    (some ⟨tx, ty, p.2, deviation⟩, (deviation : WithTop ℚ))
  else acc

/-- `TestProcessor._match_point`: fold the selected pairs in insertion order
starting from `best_match = None`, `min_deviation = float('inf')`. -/
def matchPoint (training : TrainingTable) (ideal : IdealTable)
    (selected : List (ℕ × ℕ)) (tx ty : ℚ) : Option MatchResult :=
  (selected.foldl (matchStep training ideal tx ty) (none, ⊤)).1

/-- The test frame as read by `pd.read_csv`: whether the `x`/`y` columns are
present, and the rows (a `none` field is a pandas `NaN`). -/
structure TestTable where
  hasX : Bool
  hasY : Bool
  rows : List (Option ℚ × Option ℚ)
deriving DecidableEq, Repr

/-- `df.dropna()`: keep only the rows with no missing value. -/
def dropna (rows : List (Option ℚ × Option ℚ)) : List (ℚ × ℚ) :=
  rows.filterMap fun r =>
    match r with
    | (some a, some b) => some (a, b)
    | _ => none

/-- `df.drop_duplicates()` keeps the first occurrence of each row; `seen`
accumulates the rows already emitted. -/
def dedupFirstAux {α : Type} [DecidableEq α] : List α → List α → List α
  | [], _ => []
  | a :: as, seen =>
      if a ∈ seen then dedupFirstAux as seen else a :: dedupFirstAux as (a :: seen)

/-- `df.drop_duplicates()` (first occurrences kept). -/
def dedupFirst {α : Type} [DecidableEq α] (l : List α) : List α :=
  dedupFirstAux l []

/-- `BaseProcessor.clean_data`: `df.dropna().drop_duplicates()`. -/
def cleanData (rows : List (Option ℚ × Option ℚ)) : List (ℚ × ℚ) :=
  dedupFirst (dropna rows)

/-- `TestProcessor.process`: clean the test rows, fail with `DataError` if
the `x` or `y` column is missing or nothing was selected, else collect the
non-`None` results of `_match_point` over the rows in order. -/
def testerProcess (tbl : TestTable) (training : TrainingTable) (ideal : IdealTable)
    (selected : List (ℕ × ℕ)) : Except String (List MatchResult) :=
  let rows := cleanData tbl.rows
  if tbl.hasX && tbl.hasY then
    if selected.isEmpty then Except.error "No ideal functions selected"
    else Except.ok (rows.filterMap fun r => matchPoint training ideal selected r.1 r.2)
  else Except.error "Test CSV missing x or y columns"

/-- `SimpleFunctionAnalysis.run_analysis` steps 2–3: the selector must
complete before the test processor runs; a `SelectionError` aborts the
pipeline before any classification. -/
def runPipeline (training : TrainingTable) (ideal : IdealTable) (tbl : TestTable) :
    Except String (List (ℕ × ℕ) × List MatchResult) := do
  let sel ← selectorProcess training ideal
  let res ← testerProcess tbl training ideal sel
  return (sel, res)

/-- The spec's `maxPointwiseDeviation(r, c) = max_i abs(r.y[i] - c.y[i])`.
Modelled from the spec's words (§4.1 "Record, for the winning pair, the
maximum pointwise absolute deviation") for comparison with the code: the
source records no such quantity. -/
def specMaxPointwiseDev (r c : List ℚ) : ℚ :=
  ((r.zip c).map fun p => |p.1 - p.2|).foldr max 0

/-- The last index in the list whose candidate column is present (the value
the buggy selection loop actually computes, see `foldl_selStep_best_ideal`). -/
def lastPresent (ideal : IdealTable) : List ℕ → Option ℕ
  | [] => none
  | i :: rest =>
      match lastPresent ideal rest with
      | some j => some j
      | none => if (colLookup ideal.cols i).isSome then some i else none

section Examples

/-- Concrete training frame: all four reference columns `[0, 0]` on
`x = [0, 1]`. -/
def exTrainA : TrainingTable :=
  ⟨[0, 1], [0, 0], [0, 0], [0, 0], [0, 0]⟩

/-- Concrete candidate library: `y1 = [0, 0]` (squared error 0 against every
reference column) and `y2 = [1, 1]` (squared error 2). -/
def exIdealA : IdealTable :=
  ⟨[0, 1], [(1, [0, 0]), (2, [1, 1])]⟩

/-- Concrete training frame for the tie case: all reference columns `[1, 1]`. -/
def exTrainB : TrainingTable :=
  ⟨[0, 1], [1, 1], [1, 1], [1, 1], [1, 1]⟩

/-- Concrete candidate library with an exact squared-error tie:
`y1 = y2 = [1, 1]`, both with squared error `0` against every reference. -/
def exIdealB : IdealTable :=
  ⟨[0, 1], [(1, [1, 1]), (2, [1, 1])]⟩

/-- An empty candidate library (no `y{i}` column at all). -/
def exIdealEmpty : IdealTable :=
  ⟨[0, 1], []⟩

/-- An empty, well-formed test frame. -/
def exTestEmpty : TestTable :=
  ⟨true, true, []⟩

/-- Concrete candidate library whose only column `y1 = [0, 1]` deviates from
the all-zero reference curves by `0` at row 0 and by `1` at row 1. -/
def exIdealC : IdealTable :=
  ⟨[0, 1], [(1, [0, 1])]⟩

end Examples

/-- The squared encoding agrees with the real-number comparison against
`√2 * t` on nonnegative inputs. -/
theorem leSqrtTwoMul_iff_real (d t : ℚ) (hd : 0 ≤ d) (ht : 0 ≤ t) :
    leSqrtTwoMul d t = true ↔ (d : ℝ) ≤ Real.sqrt 2 * t := by
  have h2 : Real.sqrt 2 * (t : ℝ) = Real.sqrt (2 * (t : ℝ) ^ 2) := by
    rw [Real.sqrt_mul (by norm_num : (0 : ℝ) ≤ 2), Real.sqrt_sq (by exact_mod_cast ht)]
  rw [h2, Real.le_sqrt (by exact_mod_cast hd) (by positivity)]
  simp only [leSqrtTwoMul, decide_eq_true_eq]
  constructor
  · intro h
    exact_mod_cast h
  · intro h
    exact_mod_cast h

section SelectorLemmas

theorem selStep_best_error (train : List ℚ) (ideal : IdealTable) (s : SelState) (i : ℕ) :
    (selStep train ideal s i).best_error = s.best_error := by
  unfold selStep
  cases colLookup ideal.cols i with
  | none => rfl
  | some c =>
      simp only []
      split
      · rfl
      · rfl

theorem foldl_selStep_best_error (train : List ℚ) (ideal : IdealTable) :
    ∀ (L : List ℕ) (s : SelState),
      (L.foldl (selStep train ideal) s).best_error = s.best_error := by
  intro L
  induction L with
  | nil => intro s; rfl
  | cons i rest ih =>
      intro s
      simp only [List.foldl_cons]
      rw [ih, selStep_best_error]

/-- The heart of the selection bug: because `best_error` never changes from
`float('inf')`, every candidate whose column is present overwrites
`best_ideal`, so the loop ends with the **last** present index. -/
theorem foldl_selStep_best_ideal (train : List ℚ) (ideal : IdealTable) :
    ∀ (L : List ℕ) (s : SelState), s.best_error = ⊤ →
      (L.foldl (selStep train ideal) s).best_ideal =
        match lastPresent ideal L with
        | some j => some j
        | none => s.best_ideal := by
  intro L
  induction L with
  | nil => intro s _; rfl
  | cons i rest ih =>
      intro s hs
      simp only [List.foldl_cons, lastPresent]
      cases hc : colLookup ideal.cols i with
      | none =>
          have hstep : selStep train ideal s i = s := by
            unfold selStep
            rw [hc]
          rw [hstep, ih s hs]
          cases lastPresent ideal rest with
          | some j => rfl
          | none => simp [hc]
      | some c =>
          have hstep : selStep train ideal s i = ⟨s.best_error, some i⟩ := by
            unfold selStep
            rw [hc]
            simp only []
            rw [if_pos]
            rw [hs]
            exact WithTop.coe_lt_top _
          rw [hstep, ih ⟨s.best_error, some i⟩ hs]
          cases lastPresent ideal rest with
          | some j => rfl
          | none => simp [hc]

/-- `selectFor` ends with `best_ideal` = the last present candidate index. -/
theorem selectFor_best_ideal (train : List ℚ) (ideal : IdealTable) :
    (selectFor train ideal).best_ideal = lastPresent ideal (List.range' 1 50) := by
  unfold selectFor
  rw [foldl_selStep_best_ideal train ideal (List.range' 1 50) ⟨⊤, none⟩ rfl]
  cases lastPresent ideal (List.range' 1 50) with
  | some j => rfl
  | none => rfl

/-- A present index found by `lastPresent` is a member of the scanned list
and its column is present. -/
theorem lastPresent_spec (ideal : IdealTable) :
    ∀ (L : List ℕ) (i : ℕ), lastPresent ideal L = some i →
      i ∈ L ∧ (colLookup ideal.cols i).isSome := by
  intro L
  induction L with
  | nil => intro i h; cases h
  | cons a rest ih =>
      intro i h
      simp only [lastPresent] at h
      cases hr : lastPresent ideal rest with
      | some j =>
          rw [hr] at h
          cases h
          have := ih i hr
          exact ⟨List.mem_cons_of_mem a this.1, this.2⟩
      | none =>
          rw [hr] at h
          by_cases hc : (colLookup ideal.cols a).isSome
          · rw [if_pos hc] at h
            cases h
            exact ⟨List.mem_cons_self a rest, hc⟩
          · rw [if_neg hc] at h
            cases h

/-- `lastPresent` finds an index precisely when some scanned index has a
present column. -/
theorem lastPresent_isSome_iff (ideal : IdealTable) :
    ∀ (L : List ℕ),
      (lastPresent ideal L).isSome = true ↔
        ∃ i ∈ L, (colLookup ideal.cols i).isSome = true := by
  intro L
  induction L with
  | nil => simp [lastPresent]
  | cons a rest ih =>
      simp only [lastPresent]
      cases hr : lastPresent ideal rest with
      | some j =>
          simp only [Option.isSome_some, true_iff]
          have := lastPresent_spec ideal rest j hr
          exact ⟨j, List.mem_cons_of_mem a this.1, this.2⟩
      | none =>
          rw [hr] at ih
          simp only [Option.isSome_none, Bool.false_eq_true, false_iff, not_exists] at ih
          by_cases hc : (colLookup ideal.cols a).isSome
          · simp only [if_pos hc, Option.isSome_some, true_iff]
            exact ⟨a, List.mem_cons_self a rest, hc⟩
          · simp only [if_neg hc, Option.isSome_none, Bool.false_eq_true, false_iff,
              not_exists]
            intro i hi
            rcases hi with ⟨hmem, hp⟩
            rcases List.mem_cons.1 hmem with rfl | hmem2
            · exact hc hp
            · exact ih i ⟨hmem2, hp⟩

/-- Closed form of `FunctionSelector.process`: the outcome depends only on
the last present candidate index (every reference curve receives the same
candidate). -/
theorem selectorProcess_eq (training : TrainingTable) (ideal : IdealTable) :
    selectorProcess training ideal =
      match lastPresent ideal (List.range' 1 50) with
      | some i =>
          if i = 0 then Except.error "Could not select 4 ideal functions"
          else Except.ok [(1, i), (2, i), (3, i), (4, i)]
      | none => Except.error "Could not select 4 ideal functions" := by
  unfold selectorProcess
  cases hl : lastPresent ideal (List.range' 1 50) with
  | some i =>
      by_cases hi : i = 0
      · subst hi
        simp [List.foldl_cons, selectFor_best_ideal, hl, pyTruthy]
      · simp [List.foldl_cons, selectFor_best_ideal, hl, pyTruthy, hi]
  | none =>
      simp [List.foldl_cons, selectFor_best_ideal, hl]

end SelectorLemmas

/-- C1: the claim says the recorded candidate minimizes the sum of squared
errors among the candidates present in the library.  The code violates
this: with candidates `y1 = [0,0]` (squared error `0` against every
reference column) and `y2 = [1,1]` (squared error `2`), the selector maps
every reference curve to `y2` — the `best_error = best_error` no-op keeps
`best_error` at infinity, so the last present column always overwrites the
running best, contradicting the selector's own docstring ("find the ideal
function with minimum sum of squared errors"). -/
theorem c1_selector_picks_last_not_minimal :
    selectorProcess exTrainA exIdealA = Except.ok [(1, 2), (2, 2), (3, 2), (4, 2)]
    ∧ colLookup exIdealA.cols 1 = some [0, 0]
    ∧ lsError (exTrainA.col 1) [0, 0] < lsError (exTrainA.col 1) [1, 1]
    ∧ lsError (exTrainA.col 2) [0, 0] < lsError (exTrainA.col 2) [1, 1]
    ∧ lsError (exTrainA.col 3) [0, 0] < lsError (exTrainA.col 3) [1, 1]
    ∧ lsError (exTrainA.col 4) [0, 0] < lsError (exTrainA.col 4) [1, 1] := by
  refine ⟨?_, by decide, ?_, ?_, ?_, ?_⟩
  · rw [selectorProcess_eq]
    have h : lastPresent exIdealA (List.range' 1 50) = some 2 := by decide
    rw [h]
    rfl
  all_goals norm_num [lsError, TrainingTable.col, exTrainA]

/-- C5: the claim says an exact squared-error tie goes to the lower
identifier.  The code violates this: with `y1 = y2 = [1,1]` tied at squared
error `0` against every reference column, the selector maps every
reference curve to `y2` (the higher identifier), again because of the
`best_error = best_error` no-op. -/
theorem c5_tie_goes_to_higher_identifier :
    selectorProcess exTrainB exIdealB = Except.ok [(1, 2), (2, 2), (3, 2), (4, 2)]
    ∧ colLookup exIdealB.cols 1 = some [1, 1]
    ∧ colLookup exIdealB.cols 2 = some [1, 1]
    ∧ lsError (exTrainB.col 1) ((colLookup exIdealB.cols 1).getD [])
        = lsError (exTrainB.col 1) ((colLookup exIdealB.cols 2).getD []) := by
  refine ⟨?_, by decide, by decide, by rfl⟩
  rw [selectorProcess_eq]
  have h : lastPresent exIdealB (List.range' 1 50) = some 2 := by decide
  rw [h]
  rfl

/-- C3: with at least one candidate column present among `y1`..`y50`, the
selector returns a selection with exactly 4 entries keyed by the reference
curves `y1`..`y4`; with an empty candidate library it fails with a
`SelectionError` and the pipeline aborts before the classifier runs. -/
theorem c3_cardinality_invariant (training : TrainingTable) (ideal : IdealTable)
    (tbl : TestTable) :
    ((∃ i ∈ List.range' 1 50, (colLookup ideal.cols i).isSome = true) →
      ∃ sel, selectorProcess training ideal = Except.ok sel
        ∧ sel.map Prod.fst = [1, 2, 3, 4] ∧ sel.length = 4)
    ∧ ((∀ i, colLookup ideal.cols i = none) →
      ∃ e, selectorProcess training ideal = Except.error e
        ∧ runPipeline training ideal tbl = Except.error e) := by
  constructor
  · intro hex
    have hsome : (lastPresent ideal (List.range' 1 50)).isSome = true :=
      (lastPresent_isSome_iff ideal (List.range' 1 50)).2 hex
    rcases Option.isSome_iff_exists.1 hsome with ⟨i, hi⟩
    have hspec := lastPresent_spec ideal (List.range' 1 50) i hi
    have hge : 1 ≤ i := by
      have := hspec.1
      rw [List.mem_range'_1] at this
      exact this.1
    have hne : i ≠ 0 := by omega
    refine ⟨[(1, i), (2, i), (3, i), (4, i)], ?_, by simp, by simp⟩
    rw [selectorProcess_eq, hi]
    simp [hne]
  · intro hall
    have hnone : lastPresent ideal (List.range' 1 50) = none := by
      cases hl : lastPresent ideal (List.range' 1 50) with
      | none => rfl
      | some i =>
          have := (lastPresent_spec ideal (List.range' 1 50) i hl).2
          rw [hall i] at this
          cases this
    refine ⟨"Could not select 4 ideal functions", ?_, ?_⟩
    · rw [selectorProcess_eq, hnone]
    · have hsel : selectorProcess training ideal
          = Except.error "Could not select 4 ideal functions" := by
        rw [selectorProcess_eq, hnone]
      simp only [runPipeline, hsel]
      rfl

section MatchPointLemmas

/-- Invariant-preserving unrolling of the `_match_point` loop: the running
`(best_match, min_deviation)` state tracks the first minimal-deviation
accepted pair computed by `List.argAux` over the accepted sub-sequence. -/
theorem matchFold_argmin (training : TrainingTable) (ideal : IdealTable) (tx ty : ℚ) :
    ∀ (L : List (ℕ × ℕ)) (s : Option MatchResult × WithTop ℚ) (o : Option (ℕ × ℕ)),
      s.1 = o.map (fun p => ⟨tx, ty, p.2, pairDev ideal p.2 tx ty⟩) →
      s.2 = (match o with
             | none => (⊤ : WithTop ℚ)
             | some p => ((pairDev ideal p.2 tx ty : ℚ) : WithTop ℚ)) →
      (L.foldl (matchStep training ideal tx ty) s).1 =
        (((L.filter fun p => pairAccepts training ideal p tx ty).foldl
            (List.argAux fun b c => pairDev ideal b.2 tx ty < pairDev ideal c.2 tx ty) o).map
          (fun p => ⟨tx, ty, p.2, pairDev ideal p.2 tx ty⟩)) := by
  intro L
  induction L with
  | nil =>
      intro s o h1 _
      simpa using h1
  | cons p L ih =>
      intro s o h1 h2
      by_cases hacc : pairAccepts training ideal p tx ty = true
      · simp only [List.filter_cons, hacc, if_true, List.foldl_cons]
        cases o with
        | none =>
            have hstep : matchStep training ideal tx ty s p
                = (some ⟨tx, ty, p.2, pairDev ideal p.2 tx ty⟩,
                   ((pairDev ideal p.2 tx ty : ℚ) : WithTop ℚ)) := by
              unfold matchStep
              rw [if_pos]
              exact ⟨hacc, by rw [h2]; exact WithTop.coe_lt_top _⟩
            rw [hstep]
            exact ih _ (some p) rfl rfl
        | some q =>
            have h2' : s.2 = ((pairDev ideal q.2 tx ty : ℚ) : WithTop ℚ) := by rw [h2]
            by_cases hlt : pairDev ideal p.2 tx ty < pairDev ideal q.2 tx ty
            · have hstep : matchStep training ideal tx ty s p
                  = (some ⟨tx, ty, p.2, pairDev ideal p.2 tx ty⟩,
                     ((pairDev ideal p.2 tx ty : ℚ) : WithTop ℚ)) := by
                unfold matchStep
                rw [if_pos]
                exact ⟨hacc, by rw [h2']; exact_mod_cast hlt⟩
              have harg : List.argAux
                    (fun b c => pairDev ideal b.2 tx ty < pairDev ideal c.2 tx ty)
                    (some q) p = some p := by
                simp only [List.argAux]
                rw [if_pos hlt]
              rw [hstep, harg]
              exact ih _ (some p) rfl rfl
            · have hstep : matchStep training ideal tx ty s p = s := by
                unfold matchStep
                rw [if_neg]
                intro hand
                apply hlt
                have := hand.2
                rw [h2'] at this
                exact_mod_cast this
              have harg : List.argAux
                    (fun b c => pairDev ideal b.2 tx ty < pairDev ideal c.2 tx ty)
                    (some q) p = some q := by
                simp only [List.argAux]
                rw [if_neg hlt]
              rw [hstep, harg]
              exact ih _ (some q) h1 h2
      · simp only [List.filter_cons, hacc, Bool.false_eq_true, if_false, List.foldl_cons]
        have hstep : matchStep training ideal tx ty s p = s := by
          unfold matchStep
          rw [if_neg]
          intro hand
          exact hacc hand.1
        rw [hstep]
        exact ih _ o h1 h2

/-- `_match_point` computes the first minimal-deviation accepted pair:
`argmin` of the deviation over the accepted pairs in selection order. -/
theorem matchPoint_eq_argmin (training : TrainingTable) (ideal : IdealTable)
    (selected : List (ℕ × ℕ)) (tx ty : ℚ) :
    matchPoint training ideal selected tx ty =
      ((selected.filter fun p => pairAccepts training ideal p tx ty).argmin
        (fun p => pairDev ideal p.2 tx ty)).map
        (fun p => ⟨tx, ty, p.2, pairDev ideal p.2 tx ty⟩) := by
  unfold matchPoint List.argmin
  exact matchFold_argmin training ideal tx ty selected (none, ⊤) none rfl rfl

end MatchPointLemmas

/-- C4: a test observation yields at most one result; when one is emitted it
comes from an accepted pair of minimal deviation, and every *earlier*
accepted pair (in selection order, i.e. earliest-processed reference first)
has strictly larger deviation; when no pair accepts, no result is emitted. -/
theorem c4_at_most_one_minimal_result (training : TrainingTable) (ideal : IdealTable)
    (selected : List (ℕ × ℕ)) (tx ty : ℚ) (hnd : selected.Nodup) :
    (matchPoint training ideal selected tx ty = none ↔
      ∀ p ∈ selected, pairAccepts training ideal p tx ty = false)
    ∧ ∀ res, matchPoint training ideal selected tx ty = some res →
        ∃ L1 p L2, selected = L1 ++ p :: L2
          ∧ pairAccepts training ideal p tx ty = true
          ∧ res = ⟨tx, ty, p.2, pairDev ideal p.2 tx ty⟩
          ∧ (∀ q ∈ selected, pairAccepts training ideal q tx ty = true →
              pairDev ideal p.2 tx ty ≤ pairDev ideal q.2 tx ty)
          ∧ (∀ q ∈ L1, pairAccepts training ideal q tx ty = true →
              pairDev ideal p.2 tx ty < pairDev ideal q.2 tx ty) := by
  rw [matchPoint_eq_argmin]
  constructor
  · rw [Option.map_eq_none']
    rw [List.argmin_eq_none, List.filter_eq_nil_iff]
    constructor
    · intro h p hp
      by_contra hacc
      exact h p hp (by simpa using hacc)
    · intro h p hp hacc
      rw [h p hp] at hacc
      cases hacc
  · intro res hres
    cases hm : (selected.filter fun p => pairAccepts training ideal p tx ty).argmin
        (fun p => pairDev ideal p.2 tx ty) with
    | none =>
        rw [hm] at hres
        cases hres
    | some m =>
        rw [hm] at hres
        simp only [Option.map_some'] at hres
        have hres2 : res = ⟨tx, ty, m.2, pairDev ideal m.2 tx ty⟩ := by
          injection hres with h
          exact h.symm
        have harg := (List.argmin_eq_some_iff).1 hm
        have hmem_f : m ∈ selected.filter fun p => pairAccepts training ideal p tx ty :=
          harg.1
        have hmin := harg.2.1
        have hidx := harg.2.2
        rw [List.mem_filter] at hmem_f
        rcases List.append_of_mem hmem_f.1 with ⟨L1, L2, hdec⟩
        have hnotL1 : m ∉ L1 := by
          intro hin
          rw [hdec] at hnd
          rcases List.nodup_append.1 hnd with ⟨_, _, hdisj⟩
          exact hdisj hin (List.mem_cons_self m L2)
        refine ⟨L1, m, L2, hdec, hmem_f.2, hres2, ?_, ?_⟩
        · intro q hq haccq
          exact hmin q (List.mem_filter.2 ⟨hq, haccq⟩)
        · intro q hq haccq
          by_contra hnlt
          have hleq : pairDev ideal q.2 tx ty ≤ pairDev ideal m.2 tx ty :=
            le_of_not_lt hnlt
          have hqsel : q ∈ selected := by
            rw [hdec]
            exact List.mem_append_left _ hq
          have hqf : q ∈ selected.filter fun p => pairAccepts training ideal p tx ty :=
            List.mem_filter.2 ⟨hqsel, haccq⟩
          have hle_idx := hidx q hqf hleq
          have hsplit : (selected.filter fun p => pairAccepts training ideal p tx ty)
              = (L1.filter fun p => pairAccepts training ideal p tx ty)
                ++ m :: (L2.filter fun p => pairAccepts training ideal p tx ty) := by
            rw [hdec, List.filter_append, List.filter_cons, hmem_f.2]
            simp
          have hmnotf : m ∉ L1.filter fun p => pairAccepts training ideal p tx ty := by
            intro hin
            exact hnotL1 (List.mem_filter.1 hin).1
          have hqinf : q ∈ L1.filter fun p => pairAccepts training ideal p tx ty :=
            List.mem_filter.2 ⟨hq, haccq⟩
          rw [hsplit, List.indexOf_append_of_not_mem hmnotf,
            List.indexOf_append_of_mem hqinf, List.indexOf_cons_self] at hle_idx
          have hlt_idx := List.indexOf_lt_length.2 hqinf
          omega

section EvaluationHelpers

/-- Deviations are nonnegative (they are absolute values). -/
theorem pairDev_nonneg (ideal : IdealTable) (i : ℕ) (tx ty : ℚ) :
    0 ≤ pairDev ideal i tx ty :=
  abs_nonneg _

/-- Train deviations are nonnegative (they are absolute values). -/
theorem pairTrainDev_nonneg (training : TrainingTable) (ideal : IdealTable)
    (j i : ℕ) (tx : ℚ) : 0 ≤ pairTrainDev training ideal j i tx :=
  abs_nonneg _

/-- If no selected pair accepts the observation, `_match_point` returns
`None`. -/
theorem matchPoint_none_of_all_reject (training : TrainingTable) (ideal : IdealTable)
    (selected : List (ℕ × ℕ)) (tx ty : ℚ)
    (h : ∀ p ∈ selected, pairAccepts training ideal p tx ty = false) :
    matchPoint training ideal selected tx ty = none := by
  rw [matchPoint_eq_argmin]
  have hnil : (selected.filter fun p => pairAccepts training ideal p tx ty) = [] := by
    rw [List.filter_eq_nil_iff]
    intro p hp hacc
    rw [h p hp] at hacc
    cases hacc
  rw [hnil, List.argmin_nil, Option.map_none']

/-- `argmin` keeps the head when nothing beats it strictly. -/
theorem argmin_cons_of_min {α β : Type} [LinearOrder β] (f : α → β) (a : α) (l : List α)
    (h : ∀ b ∈ l, f a ≤ f b) : List.argmin f (a :: l) = some a := by
  rw [List.argmin_cons]
  cases hl : List.argmin f l with
  | none => rfl
  | some c =>
      have hc : c ∈ l := List.argmin_mem hl
      simp only []
      rw [if_neg (not_lt_of_le (h c hc))]

/-- If the first selected pair accepts and no later accepted pair has a
strictly smaller deviation, `_match_point` returns the first pair's record. -/
theorem matchPoint_head_min (training : TrainingTable) (ideal : IdealTable)
    (p : ℕ × ℕ) (rest : List (ℕ × ℕ)) (tx ty : ℚ)
    (haccp : pairAccepts training ideal p tx ty = true)
    (hmin : ∀ q ∈ rest, pairAccepts training ideal q tx ty = true →
      pairDev ideal p.2 tx ty ≤ pairDev ideal q.2 tx ty) :
    matchPoint training ideal (p :: rest) tx ty
      = some ⟨tx, ty, p.2, pairDev ideal p.2 tx ty⟩ := by
  rw [matchPoint_eq_argmin]
  have hfil : ((p :: rest).filter fun q => pairAccepts training ideal q tx ty)
      = p :: (rest.filter fun q => pairAccepts training ideal q tx ty) := by
    rw [List.filter_cons, haccp]
    simp
  rw [hfil, argmin_cons_of_min]
  · rfl
  · intro b hb
    have := List.mem_filter.1 hb
    exact hmin b this.1 this.2

end EvaluationHelpers

/-- C6: the acceptance rule of `_match_point` is the inclusive comparison
`deviation ≤ √2 · train_deviation` over the reals; in particular a
deviation exactly equal to the threshold is accepted, not rejected. -/
theorem c6_acceptance_inclusive (training : TrainingTable) (ideal : IdealTable)
    (j i : ℕ) (tx ty : ℚ) :
    (pairAccepts training ideal (j, i) tx ty = true ↔
      (pairDev ideal i tx ty : ℝ)
        ≤ Real.sqrt 2 * (pairTrainDev training ideal j i tx : ℝ))
    ∧ ((pairDev ideal i tx ty : ℝ)
        = Real.sqrt 2 * (pairTrainDev training ideal j i tx : ℝ) →
      pairAccepts training ideal (j, i) tx ty = true) := by
  have hiff := leSqrtTwoMul_iff_real (pairDev ideal i tx ty)
    (pairTrainDev training ideal j i tx) (pairDev_nonneg _ _ _ _)
    (pairTrainDev_nonneg _ _ _ _ _)
  constructor
  · exact hiff
  · intro heq
    exact hiff.2 (le_of_eq heq)

/-- Witness for C6: at the observation `(0, 0)` against the pair
`(y1, y1)` of `exTrainA`/`exIdealA` the deviation `0` is exactly equal to
the threshold `√2 · 0`, and the pair accepts. -/
theorem c6_acceptance_inclusive_witness :
    pairAccepts exTrainA exIdealA (1, 1) 0 0 = true := by
  apply (c6_acceptance_inclusive exTrainA exIdealA 1 1 0 0).2
  have h1 : pairDev exIdealA 1 0 0 = 0 := by
    norm_num [pairDev, pairIdealY, closestIdx, idxmin, idxminFrom, colLookup, exIdealA]
  have h2 : pairTrainDev exTrainA exIdealA 1 1 0 = 0 := by
    norm_num [pairTrainDev, pairTrainY, pairIdealY, closestIdx, idxmin, idxminFrom,
      colLookup, exIdealA, exTrainA, TrainingTable.col]
  rw [h1, h2]
  push_cast
  ring

/-- C2 (amended): the acceptance threshold applied by the classifier to the
pair `(y{j}, y{i})` at the observation `(tx, ty)` is `√2` times the *local*
train deviation `|train_y − ideal_y|` taken at the rows nearest `tx` — not
a precomputed maximum over the whole domain. -/
theorem c2_amended_threshold_is_local (training : TrainingTable) (ideal : IdealTable)
    (j i : ℕ) (tx ty : ℚ) :
    (matchPoint training ideal [(j, i)] tx ty
        = some ⟨tx, ty, i, pairDev ideal i tx ty⟩ ↔
      (pairDev ideal i tx ty : ℝ)
        ≤ Real.sqrt 2 * (pairTrainDev training ideal j i tx : ℝ))
    ∧ (matchPoint training ideal [(j, i)] tx ty = none ↔
      ¬ (pairDev ideal i tx ty : ℝ)
          ≤ Real.sqrt 2 * (pairTrainDev training ideal j i tx : ℝ)) := by
  have hiff := leSqrtTwoMul_iff_real (pairDev ideal i tx ty)
    (pairTrainDev training ideal j i tx) (pairDev_nonneg _ _ _ _)
    (pairTrainDev_nonneg _ _ _ _ _)
  by_cases hacc : pairAccepts training ideal (j, i) tx ty = true
  · have hmp := matchPoint_head_min training ideal (j, i) [] tx ty hacc
      (by intro q hq; cases hq)
    have hreal := hiff.1 hacc
    constructor
    · exact iff_of_true hmp hreal
    · refine iff_of_false ?_ (by exact fun hn => hn hreal)
      rw [hmp]
      simp
  · have hrej : ∀ p ∈ [(j, i)], pairAccepts training ideal p tx ty = false := by
      intro p hp
      rcases List.mem_singleton.1 hp with rfl
      exact Bool.not_eq_true _ ▸ (Bool.of_not_eq_true hacc)
    have hmp := matchPoint_none_of_all_reject training ideal [(j, i)] tx ty hrej
    have hnreal : ¬ (pairDev ideal i tx ty : ℝ)
        ≤ Real.sqrt 2 * (pairTrainDev training ideal j i tx : ℝ) := by
      intro hr
      exact hacc (hiff.2 hr)
    constructor
    · refine iff_of_false ?_ hnreal
      rw [hmp]
      simp
    · exact iff_of_true hmp hnreal

/-- On `exTrainA`/`exIdealC` the selector maps every reference curve to the
only candidate `y1`. -/
theorem selC_ok :
    selectorProcess exTrainA exIdealC = Except.ok [(1, 1), (2, 1), (3, 1), (4, 1)] := by
  rw [selectorProcess_eq]
  have h : lastPresent exIdealC (List.range' 1 50) = some 1 := by decide
  rw [h]
  rfl

/-- C2 (counterexample): for the selected pair `(y1, y1)` of
`exTrainA`/`exIdealC` the spec's threshold `√2 · maxPointwiseDeviation = √2`
would accept the observation `(0, 1)` (deviation `1`), yet the classifier
emits nothing for it; the observation `(1, 2)` with the *same* deviation `1`
at a different `x` is accepted — so the threshold the code applies is not
`√2 · max_i |r.y[i] − c.y[i]|`, is not read from the Selection (which stores
only the candidate index), and depends on the observation's `x`. -/
theorem c2_threshold_not_max_deviation :
    selectorProcess exTrainA exIdealC = Except.ok [(1, 1), (2, 1), (3, 1), (4, 1)]
    ∧ specMaxPointwiseDev exTrainA.y1 [0, 1] = 1
    ∧ pairDev exIdealC 1 0 1 = 1
    ∧ leSqrtTwoMul (pairDev exIdealC 1 0 1) (specMaxPointwiseDev exTrainA.y1 [0, 1]) = true
    ∧ matchPoint exTrainA exIdealC [(1, 1), (2, 1), (3, 1), (4, 1)] 0 1 = none
    ∧ pairDev exIdealC 1 1 2 = 1
    ∧ matchPoint exTrainA exIdealC [(1, 1), (2, 1), (3, 1), (4, 1)] 1 2
        = some ⟨1, 2, 1, 1⟩ := by
  refine ⟨selC_ok, ?_, ?_, ?_, ?_, ?_, ?_⟩
  · norm_num [specMaxPointwiseDev, exTrainA]
  · norm_num [pairDev, pairIdealY, closestIdx, idxmin, idxminFrom, colLookup, exIdealC]
  · norm_num [leSqrtTwoMul, pairDev, pairIdealY, closestIdx, idxmin, idxminFrom,
      colLookup, exIdealC, specMaxPointwiseDev, exTrainA]
  · apply matchPoint_none_of_all_reject
    intro p hp
    fin_cases hp <;>
      norm_num [pairAccepts, leSqrtTwoMul, pairDev, pairTrainDev, pairIdealY, pairTrainY,
        closestIdx, idxmin, idxminFrom, colLookup, exIdealC, exTrainA, TrainingTable.col]
  · norm_num [pairDev, pairIdealY, closestIdx, idxmin, idxminFrom, colLookup, exIdealC]
  · have hacc : pairAccepts exTrainA exIdealC (1, 1) 1 2 = true := by
      norm_num [pairAccepts, leSqrtTwoMul, pairDev, pairTrainDev, pairIdealY, pairTrainY,
        closestIdx, idxmin, idxminFrom, colLookup, exIdealC, exTrainA, TrainingTable.col]
    have hmin : ∀ q ∈ [((2 : ℕ), (1 : ℕ)), (3, 1), (4, 1)],
        pairAccepts exTrainA exIdealC q 1 2 = true →
        pairDev exIdealC (1, 1).2 1 2 ≤ pairDev exIdealC q.2 1 2 := by
      intro q hq _
      fin_cases hq <;> exact le_refl _
    have h := matchPoint_head_min exTrainA exIdealC (1, 1) [(2, 1), (3, 1), (4, 1)] 1 2
      hacc hmin
    rw [h]
    have hdev : pairDev exIdealC 1 1 2 = 1 := by
      norm_num [pairDev, pairIdealY, closestIdx, idxmin, idxminFrom, colLookup, exIdealC]
    rw [hdev]

/-- Witness for C4 at a concrete singleton selection. -/
theorem c4_at_most_one_minimal_result_witness :
    (matchPoint exTrainA exIdealA [(1, 1)] 1 1 = none ↔
      ∀ p ∈ [(1, 1)], pairAccepts exTrainA exIdealA p 1 1 = false)
    ∧ ∀ res, matchPoint exTrainA exIdealA [(1, 1)] 1 1 = some res →
        ∃ L1 p L2, ([(1, 1)] : List (ℕ × ℕ)) = L1 ++ p :: L2
          ∧ pairAccepts exTrainA exIdealA p 1 1 = true
          ∧ res = ⟨1, 1, p.2, pairDev exIdealA p.2 1 1⟩
          ∧ (∀ q ∈ [(1, 1)], pairAccepts exTrainA exIdealA q 1 1 = true →
              pairDev exIdealA p.2 1 1 ≤ pairDev exIdealA q.2 1 1)
          ∧ (∀ q ∈ L1, pairAccepts exTrainA exIdealA q 1 1 = true →
              pairDev exIdealA p.2 1 1 < pairDev exIdealA q.2 1 1) :=
  c4_at_most_one_minimal_result exTrainA exIdealA [(1, 1)] 1 1 (by simp)

/-- Witness for C3: a singleton library yields the 4-entry selection; the
empty library aborts the pipeline before classification. -/
theorem c3_cardinality_invariant_witness :
    (∃ sel, selectorProcess exTrainA exIdealA = Except.ok sel
      ∧ sel.map Prod.fst = [1, 2, 3, 4] ∧ sel.length = 4)
    ∧ (∃ e, selectorProcess exTrainA exIdealEmpty = Except.error e
      ∧ runPipeline exTrainA exIdealEmpty exTestEmpty = Except.error e) :=
  ⟨(c3_cardinality_invariant exTrainA exIdealA exTestEmpty).1 ⟨1, by decide, by decide⟩,
   (c3_cardinality_invariant exTrainA exIdealEmpty exTestEmpty).2 (fun _ => rfl)⟩

section IdxminLemmas

/-- If no element of the remaining series is strictly below the running
best value, the `idxmin` scan keeps the running best index. -/
theorem idxminFrom_of_no_lt :
    ∀ (L : List ℚ) (pos bi : ℕ) (bv : ℚ),
      (∀ m (hm : m < L.length), bv ≤ L.get ⟨m, hm⟩) →
      idxminFrom L pos bi bv = bi
  | [], _, _, _, _ => rfl
  | a :: as, pos, bi, bv, h => by
      have h0 : bv ≤ a := h 0 (by simp)
      unfold idxminFrom
      rw [if_neg (not_lt_of_le h0)]
      exact idxminFrom_of_no_lt as (pos + 1) bi bv
        (fun m hm => h (m + 1) (Nat.succ_lt_succ hm))

/-- If position `k` of the remaining series holds a value strictly below
the running best, minimal overall, and strictly below every earlier entry,
the scan returns the absolute position `pos + k`. -/
theorem idxminFrom_finds :
    ∀ (L : List ℚ) (pos bi : ℕ) (bv : ℚ) (k : ℕ) (hk : k < L.length),
      L.get ⟨k, hk⟩ < bv →
      (∀ m (hm : m < L.length), L.get ⟨k, hk⟩ ≤ L.get ⟨m, hm⟩) →
      (∀ m (hm : m < L.length), m < k → L.get ⟨k, hk⟩ < L.get ⟨m, hm⟩) →
      idxminFrom L pos bi bv = pos + k
  | [], _, _, _, k, hk, _, _, _ => absurd hk (by simp)
  | a :: as, pos, bi, bv, 0, _, hlt, hmin, _ => by
      unfold idxminFrom
      have hlt' : a < bv := hlt
      rw [if_pos hlt']
      rw [idxminFrom_of_no_lt as (pos + 1) pos a
        (fun m hm => hmin (m + 1) (Nat.succ_lt_succ hm))]
      omega
  | a :: as, pos, bi, bv, k + 1, hk, hlt, hmin, hstrict => by
      unfold idxminFrom
      have hk' : k < as.length := Nat.lt_of_succ_lt_succ hk
      by_cases hab : a < bv
      · rw [if_pos hab]
        have hva : as.get ⟨k, hk'⟩ < a := hstrict 0 (by simp) (Nat.succ_pos k)
        rw [idxminFrom_finds as (pos + 1) pos a k hk' hva
          (fun m hm => hmin (m + 1) (Nat.succ_lt_succ hm))
          (fun m hm hmk => hstrict (m + 1) (Nat.succ_lt_succ hm) (Nat.succ_lt_succ hmk))]
        omega
      · rw [if_neg hab]
        rw [idxminFrom_finds as (pos + 1) bi bv k hk' hlt
          (fun m hm => hmin (m + 1) (Nat.succ_lt_succ hm))
          (fun m hm hmk => hstrict (m + 1) (Nat.succ_lt_succ hm) (Nat.succ_lt_succ hmk))]
        omega

/-- `idxmin` returns the first index achieving the minimum: the index of a
minimal value that is strictly below all earlier entries. -/
theorem idxmin_eq_of_first_min (l : List ℚ) (k : ℕ) (hk : k < l.length)
    (hmin : ∀ m (hm : m < l.length), l.get ⟨k, hk⟩ ≤ l.get ⟨m, hm⟩)
    (hstrict : ∀ m (hm : m < l.length), m < k → l.get ⟨k, hk⟩ < l.get ⟨m, hm⟩) :
    idxmin l = k := by
  cases l with
  | nil => exact absurd hk (by simp)
  | cons a as =>
      cases k with
      | zero =>
          show idxminFrom as 1 0 a = 0
          exact idxminFrom_of_no_lt as 1 0 a
            (fun m hm => hmin (m + 1) (Nat.succ_lt_succ hm))
      | succ k =>
          show idxminFrom as 1 0 a = k + 1
          have hk' : k < as.length := Nat.lt_of_succ_lt_succ hk
          have hva : as.get ⟨k, hk'⟩ < a := hstrict 0 (by simp) (Nat.succ_pos k)
          rw [idxminFrom_finds as 1 0 a k hk' hva
            (fun m hm => hmin (m + 1) (Nat.succ_lt_succ hm))
            (fun m hm hmk => hstrict (m + 1) (Nat.succ_lt_succ hm) (Nat.succ_lt_succ hmk))]
          omega

/-- On a series with pairwise distinct `x` values, the row nearest the
`k`-th `x` value is row `k` itself. -/
theorem closestIdx_get_self (xs : List ℚ) (hnd : xs.Nodup) (k : ℕ)
    (hk : k < xs.length) : closestIdx xs (xs.get ⟨k, hk⟩) = k := by
  unfold closestIdx
  have hlen : k < (xs.map fun v => |v - xs.get ⟨k, hk⟩|).length := by simpa using hk
  have hvalk : (xs.map fun v => |v - xs.get ⟨k, hk⟩|).get ⟨k, hlen⟩ = 0 := by
    simp [List.get_map]
  apply idxmin_eq_of_first_min _ k hlen
  · intro m hm
    rw [hvalk, List.get_map]
    exact abs_nonneg _
  · intro m hm hmk
    rw [hvalk, List.get_map]
    apply abs_pos.2
    apply sub_ne_zero.2
    intro heq
    have hfin := (hnd.get_inj_iff).1 heq
    have hmk' : m = k := congrArg Fin.val hfin
    omega

end IdxminLemmas

/-- The acceptance comparison holds reflexively: `d ≤ √2 · d` for any
deviation `d ≥ 0`, in squared form `d² ≤ 2·d²`. -/
theorem leSqrtTwoMul_self (d : ℚ) : leSqrtTwoMul d d = true := by
  simp only [leSqrtTwoMul, decide_eq_true_eq]
  nlinarith [sq_nonneg d]

/-- C8: classifying a reference curve's own sample `(x_k, r.y[k])` against
that curve's selected candidate always passes the acceptance test, because
the train deviation the classifier computes at `x_k` coincides with the
observation's deviation and the threshold multiplies it by `√2 ≥ 1`
(shared `x` grid with distinct sample positions assumed, as in the spec). -/
theorem c8_reflexive_acceptance (training : TrainingTable) (ideal : IdealTable)
    (sel : List (ℕ × ℕ)) (j i k : ℕ)
    (hsel : selectorProcess training ideal = Except.ok sel)
    (hmem : (j, i) ∈ sel)
    (hx : training.x = ideal.x)
    (hnd : ideal.x.Nodup)
    (hk : k < ideal.x.length)
    (hkt : k < (training.col j).length) :
    pairAccepts training ideal (j, i)
      (ideal.x.get ⟨k, hk⟩) ((training.col j).get ⟨k, hkt⟩) = true := by
  have hclose : closestIdx training.x (ideal.x.get ⟨k, hk⟩) = k := by
    rw [hx]
    exact closestIdx_get_self ideal.x hnd k hk
  have hty : pairTrainY training j (ideal.x.get ⟨k, hk⟩)
      = (training.col j).get ⟨k, hkt⟩ := by
    unfold pairTrainY
    rw [hclose, List.getD_eq_getElem?_getD, List.getElem?_eq_getElem hkt]
    rfl
  unfold pairAccepts pairDev pairTrainDev
  rw [← hty]
  exact leSqrtTwoMul_self _

/-- Witness for C8: row 0 of the reference curve `y1` of `exTrainA` is
accepted against its selected candidate from `exIdealC`. -/
theorem c8_reflexive_acceptance_witness :
    pairAccepts exTrainA exIdealC (1, 1)
      (exIdealC.x.get ⟨0, by norm_num [exIdealC]⟩)
      ((exTrainA.col 1).get ⟨0, by norm_num [exTrainA, TrainingTable.col]⟩) = true :=
  c8_reflexive_acceptance exTrainA exIdealC [(1, 1), (2, 1), (3, 1), (4, 1)] 1 1 0
    selC_ok (by simp) rfl (by norm_num [exIdealC])
    (by norm_num [exIdealC]) (by norm_num [exTrainA, TrainingTable.col])

/-- C9: `select` and `classify` are deterministic — two runs over identical
reference curves, candidate library, test data and selection produce
identical outputs (the embedding is a pure function of its inputs; the
iteration orders are the fixed `y1..y4` scan, `range(1, 51)`, and the
Selection's insertion order). -/
theorem c9_determinism (t1 t2 : TrainingTable) (i1 i2 : IdealTable)
    (b1 b2 : TestTable) (s1 s2 : List (ℕ × ℕ))
    (ht : t1 = t2) (hi : i1 = i2) (hb : b1 = b2) (hs : s1 = s2) :
    selectorProcess t1 i1 = selectorProcess t2 i2
    ∧ testerProcess b1 t1 i1 s1 = testerProcess b2 t2 i2 s2
    ∧ runPipeline t1 i1 b1 = runPipeline t2 i2 b2 := by
  subst ht
  subst hi
  subst hb
  subst hs
  exact ⟨rfl, rfl, rfl⟩

/-- Witness for C9 at concrete inputs. -/
theorem c9_determinism_witness :
    selectorProcess exTrainA exIdealA = selectorProcess exTrainA exIdealA
    ∧ testerProcess exTestEmpty exTrainA exIdealA [(1, 1)]
        = testerProcess exTestEmpty exTrainA exIdealA [(1, 1)]
    ∧ runPipeline exTrainA exIdealA exTestEmpty
        = runPipeline exTrainA exIdealA exTestEmpty :=
  c9_determinism exTrainA exTrainA exIdealA exIdealA exTestEmpty exTestEmpty
    [(1, 1)] [(1, 1)] rfl rfl rfl rfl

section CleaningLemmas

/-- Filtering out the rows with a missing value does not change `dropna`. -/
theorem dropna_filter_isSome (rows : List (Option ℚ × Option ℚ)) :
    dropna (rows.filter fun r => r.1.isSome && r.2.isSome) = dropna rows := by
  induction rows with
  | nil => rfl
  | cons r rest ih =>
      rcases r with ⟨xo, yo⟩
      cases xo with
      | none => simpa [dropna, List.filter_cons] using ih
      | some a =>
          cases yo with
          | none => simpa [dropna, List.filter_cons] using ih
          | some b => simpa [dropna, List.filter_cons] using ih

/-- Every row emitted by the deduplication scan avoids `seen`, and the
output has no duplicates. -/
theorem dedupFirstAux_spec {α : Type} [DecidableEq α] :
    ∀ (l seen : List α),
      (∀ a ∈ dedupFirstAux l seen, a ∉ seen) ∧ (dedupFirstAux l seen).Nodup
  | [], _ => ⟨fun a ha => absurd ha (List.not_mem_nil a), List.nodup_nil⟩
  | a :: as, seen => by
      unfold dedupFirstAux
      by_cases h : a ∈ seen
      · rw [if_pos h]
        exact dedupFirstAux_spec as seen
      · rw [if_neg h]
        have ih := dedupFirstAux_spec as (a :: seen)
        constructor
        · intro b hb
          rcases List.mem_cons.1 hb with rfl | hb2
          · exact h
          · intro hbs
            exact ih.1 b hb2 (List.mem_cons_of_mem a hbs)
        · rw [List.nodup_cons]
          refine ⟨?_, ih.2⟩
          intro hmem
          exact ih.1 a hmem (List.mem_cons_self a seen)

/-- Appending a row already seen (in the list or in `seen`) leaves the
deduplication scan's output unchanged. -/
theorem dedupFirstAux_append_mem {α : Type} [DecidableEq α] :
    ∀ (l seen : List α) (v : α), v ∈ l ∨ v ∈ seen →
      dedupFirstAux (l ++ [v]) seen = dedupFirstAux l seen
  | [], seen, v, h => by
      have hv : v ∈ seen := by
        rcases h with h | h
        · cases h
        · exact h
      simp only [List.nil_append]
      unfold dedupFirstAux
      rw [if_pos hv]
      rfl
  | a :: as, seen, v, h => by
      simp only [List.cons_append]
      unfold dedupFirstAux
      by_cases ha : a ∈ seen
      · rw [if_pos ha, if_pos ha]
        apply dedupFirstAux_append_mem as seen v
        rcases h with h | h
        · rcases List.mem_cons.1 h with rfl | h2
          · exact Or.inr ha
          · exact Or.inl h2
        · exact Or.inr h
      · rw [if_neg ha, if_neg ha]
        congr 1
        apply dedupFirstAux_append_mem as (a :: seen) v
        rcases h with h | h
        · rcases List.mem_cons.1 h with rfl | h2
          · exact Or.inr (List.mem_cons_self v seen)
          · exact Or.inl h2
        · exact Or.inr (List.mem_cons_of_mem a h)

/-- The cleaned rows contain no duplicates. -/
theorem cleanData_nodup (rows : List (Option ℚ × Option ℚ)) :
    (cleanData rows).Nodup :=
  (dedupFirstAux_spec (dropna rows) []).2

/-- Appending a row with a missing value, or an exact duplicate of an
earlier row, leaves `clean_data` unchanged. -/
theorem cleanData_append_invisible (rows : List (Option ℚ × Option ℚ))
    (r : Option ℚ × Option ℚ) (h : r ∈ rows ∨ r.1 = none ∨ r.2 = none) :
    cleanData (rows ++ [r]) = cleanData rows := by
  rcases r with ⟨xo, yo⟩
  cases xo with
  | none =>
      unfold cleanData
      rw [show dropna (rows ++ [(none, yo)]) = dropna rows by
        unfold dropna
        rw [List.filterMap_append]
        simp]
  | some a =>
      cases yo with
      | none =>
          unfold cleanData
          rw [show dropna (rows ++ [(some a, none)]) = dropna rows by
            unfold dropna
            rw [List.filterMap_append]
            simp]
      | some b =>
          have hmem : (some a, some b) ∈ rows := by
            rcases h with h | h | h
            · exact h
            · cases h
            · cases h
          unfold cleanData
          have hsplit : dropna (rows ++ [(some a, some b)]) = dropna rows ++ [(a, b)] := by
            unfold dropna
            rw [List.filterMap_append]
            rfl
          rw [hsplit]
          unfold dedupFirst
          apply dedupFirstAux_append_mem
          refine Or.inl (List.mem_filterMap.2 ⟨(some a, some b), hmem, rfl⟩)

end CleaningLemmas

/-- C7 (amended): a test dataset missing the `x` or `y` *column* makes the
whole classification run fail (`DataError`), with no partial results; a
test *row* with a missing value does not fail the run — it is silently
removed by `clean_data` before classification and the remaining rows are
processed. -/
theorem c7_amended_column_failure_row_skip (training : TrainingTable)
    (ideal : IdealTable) (selected : List (ℕ × ℕ)) (tbl : TestTable) :
    ((tbl.hasX = false ∨ tbl.hasY = false) →
      testerProcess tbl training ideal selected
        = Except.error "Test CSV missing x or y columns")
    ∧ testerProcess tbl training ideal selected
        = testerProcess ⟨tbl.hasX, tbl.hasY, tbl.rows.filter fun r => r.1.isSome && r.2.isSome⟩
            training ideal selected := by
  constructor
  · intro h
    unfold testerProcess
    rcases h with h | h <;> rw [h] <;> simp
  · unfold testerProcess
    simp only [cleanData, dropna_filter_isSome]

/-- Witness for C7 (amended): a frame missing the `y` column fails; a frame
whose only row lacks its `y` value behaves exactly like the frame with that
row filtered out. -/
theorem c7_amended_column_failure_row_skip_witness :
    (testerProcess ⟨true, false, []⟩ exTrainA exIdealC [(1, 1)]
      = Except.error "Test CSV missing x or y columns")
    ∧ testerProcess ⟨true, true, [(some 0, none)]⟩ exTrainA exIdealC [(1, 1)]
        = testerProcess ⟨true, true,
            [((some 0 : Option ℚ), (none : Option ℚ))].filter
              fun r => r.1.isSome && r.2.isSome⟩ exTrainA exIdealC [(1, 1)] :=
  ⟨(c7_amended_column_failure_row_skip exTrainA exIdealC [(1, 1)] ⟨true, false, []⟩).1
      (Or.inr rfl),
   (c7_amended_column_failure_row_skip exTrainA exIdealC [(1, 1)]
      ⟨true, true, [(some 0, none)]⟩).2⟩

/-- C7 (counterexample): the claim says a malformed test row (here the
second row, missing its `y` value) aborts the whole classification run and
discards all partial results.  The code instead drops the malformed row in
`clean_data` and returns the results of everything else: the run succeeds
with the first row's match. -/
theorem c7_malformed_row_does_not_abort :
    testerProcess ⟨true, true, [(some 1, some 1), (some 0, none)]⟩
      exTrainA exIdealC [(1, 1)] = Except.ok [⟨1, 1, 1, 0⟩] := by
  have hacc : pairAccepts exTrainA exIdealC (1, 1) 1 1 = true := by
    norm_num [pairAccepts, leSqrtTwoMul, pairDev, pairTrainDev, pairIdealY, pairTrainY,
      closestIdx, idxmin, idxminFrom, colLookup, exIdealC, exTrainA, TrainingTable.col]
  have hmp : matchPoint exTrainA exIdealC [(1, 1)] 1 1
      = some ⟨1, 1, 1, pairDev exIdealC 1 1 1⟩ := by
    apply matchPoint_head_min exTrainA exIdealC (1, 1) [] 1 1 hacc
    intro q hq
    cases hq
  have hdev : pairDev exIdealC 1 1 1 = 0 := by
    norm_num [pairDev, pairIdealY, closestIdx, idxmin, idxminFrom, colLookup, exIdealC]
  have hclean : cleanData [((some 1 : Option ℚ), (some 1 : Option ℚ)), (some 0, none)]
      = [(1, 1)] := by
    unfold cleanData dropna dedupFirst
    simp [dedupFirstAux, List.filterMap]
  unfold testerProcess
  rw [hclean]
  simp only [Bool.and_self, if_true, List.isEmpty_cons, List.filterMap]
  rw [hdev] at hmp
  rw [hmp]
  simp

/-- A result emitted by `_match_point` carries the test observation's own
`(x, y)`. -/
theorem matchPoint_some_xy (training : TrainingTable) (ideal : IdealTable)
    (selected : List (ℕ × ℕ)) (tx ty : ℚ) (r : MatchResult)
    (h : matchPoint training ideal selected tx ty = some r) : r.x = tx ∧ r.y = ty := by
  rw [matchPoint_eq_argmin] at h
  cases harg : (selected.filter fun p => pairAccepts training ideal p tx ty).argmin
      (fun p => pairDev ideal p.2 tx ty) with
  | none =>
      rw [harg] at h
      cases h
  | some m =>
      rw [harg] at h
      simp only [Option.map_some'] at h
      injection h with h
      rw [← h]
      exact ⟨rfl, rfl⟩

/-- If the observation `(a, b)` never occurs among the rows, no emitted
result carries `(a, b)`. -/
theorem countP_matchPoint_zero (training : TrainingTable) (ideal : IdealTable)
    (selected : List (ℕ × ℕ)) (a b : ℚ) :
    ∀ rows : List (ℚ × ℚ), (a, b) ∉ rows →
      List.countP (fun m => decide (m.x = a ∧ m.y = b))
        (rows.filterMap fun r => matchPoint training ideal selected r.1 r.2) = 0
  | [], _ => rfl
  | r :: rest, h => by
      have hr : r ≠ (a, b) := fun heq => h (heq ▸ List.mem_cons_self r rest)
      have hrest : (a, b) ∉ rest := fun hm => h (List.mem_cons_of_mem r hm)
      rw [List.filterMap_cons]
      cases hm : matchPoint training ideal selected r.1 r.2 with
      | none => exact countP_matchPoint_zero training ideal selected a b rest hrest
      | some m =>
          rw [List.countP_cons_of_neg]
          · exact countP_matchPoint_zero training ideal selected a b rest hrest
          · simp only [decide_eq_true_eq]
            intro hab
            have hxy := matchPoint_some_xy training ideal selected r.1 r.2 m hm
            apply hr
            rcases r with ⟨r1, r2⟩
            have h1 : r1 = a := hxy.1.symm.trans hab.1
            have h2 : r2 = b := hxy.2.symm.trans hab.2
            rw [h1, h2]

/-- Over duplicate-free rows, each observation value produces at most one
result record. -/
theorem countP_matchPoint_le_one (training : TrainingTable) (ideal : IdealTable)
    (selected : List (ℕ × ℕ)) (a b : ℚ) :
    ∀ rows : List (ℚ × ℚ), rows.Nodup →
      List.countP (fun m => decide (m.x = a ∧ m.y = b))
        (rows.filterMap fun r => matchPoint training ideal selected r.1 r.2) ≤ 1
  | [], _ => by simp
  | r :: rest, hnd => by
      have hnotin : r ∉ rest := (List.nodup_cons.1 hnd).1
      have hrest : rest.Nodup := (List.nodup_cons.1 hnd).2
      rw [List.filterMap_cons]
      cases hm : matchPoint training ideal selected r.1 r.2 with
      | none => exact countP_matchPoint_le_one training ideal selected a b rest hrest
      | some m =>
          by_cases hp : m.x = a ∧ m.y = b
          · rw [List.countP_cons_of_pos _ _ (by simpa using hp)]
            have hxy := matchPoint_some_xy training ideal selected r.1 r.2 m hm
            have hrab : r = (a, b) := by
              rcases r with ⟨r1, r2⟩
              have h1 : r1 = a := hxy.1.symm.trans hp.1
              have h2 : r2 = b := hxy.2.symm.trans hp.2
              rw [h1, h2]
            have hz := countP_matchPoint_zero training ideal selected a b rest
              (by rw [← hrab]; exact hnotin)
            rw [hz]
          · rw [List.countP_cons_of_neg _ _ (by simpa using hp)]
            exact countP_matchPoint_le_one training ideal selected a b rest hrest

/-- C10: a test row with a missing value, and a test row exactly duplicating
an earlier row, are silently removed by `clean_data`: appending such a row
changes neither the run's success nor its results, and each observation
value yields at most one output record (for its first occurrence). -/
theorem c10_clean_drops_nan_and_duplicates (training : TrainingTable)
    (ideal : IdealTable) (selected : List (ℕ × ℕ))
    (rows : List (Option ℚ × Option ℚ)) (r : Option ℚ × Option ℚ) (a b : ℚ)
    (h : r ∈ rows ∨ r.1 = none ∨ r.2 = none) :
    testerProcess ⟨true, true, rows ++ [r]⟩ training ideal selected
      = testerProcess ⟨true, true, rows⟩ training ideal selected
    ∧ ∀ res, testerProcess ⟨true, true, rows⟩ training ideal selected = Except.ok res →
        List.countP (fun m => decide (m.x = a ∧ m.y = b)) res ≤ 1 := by
  constructor
  · unfold testerProcess
    rw [cleanData_append_invisible rows r h]
  · intro res hres
    unfold testerProcess at hres
    by_cases hsel : selected.isEmpty
    · simp [hsel] at hres
    · simp [hsel] at hres
      rw [← hres]
      exact countP_matchPoint_le_one training ideal selected a b
        (cleanData rows) (cleanData_nodup rows)

/-- Witness for C10: appending a duplicate of the only row changes nothing,
and every observation value yields at most one record. -/
theorem c10_clean_drops_nan_and_duplicates_witness :
    (testerProcess ⟨true, true, [(some 1, some 1), (some 1, some 1)]⟩
        exTrainA exIdealC [(1, 1)]
      = testerProcess ⟨true, true, [(some 1, some 1)]⟩ exTrainA exIdealC [(1, 1)])
    ∧ ∀ res, testerProcess ⟨true, true, [(some 1, some 1)]⟩ exTrainA exIdealC [(1, 1)]
          = Except.ok res →
        List.countP (fun m => decide (m.x = 1 ∧ m.y = 1)) res ≤ 1 :=
  c10_clean_drops_nan_and_duplicates exTrainA exIdealC [(1, 1)]
    [(some 1, some 1)] (some 1, some 1) 1 1 (Or.inl (List.mem_cons_self _ _))
